import Mathlib

/-!
Verification of the sable conversation-history subsystem.

The definitions below are a shallow embedding of
`sable_network/src/history/log.rs` and of the CHATHISTORY command handler in
`sable_ircd/src/command/handlers/chathistory.rs`.  The `ConcurrentLog`
primitive comes from the external `concurrent_log` crate, which is not part
of the repository sources; it is modelled from the specification of the
append-log primitive (monotone `start_index` trim floor, `size` as the next
index to assign, `get` defined exactly on `start_index <= i < size`,
`trim` advancing the floor over a satisfying prefix).  Rust strings are
modelled as `List Char`; machine integers as `Nat`/`Int` (no overflow is
relevant to the properties proved here).
-/

namespace Sable

/-- Modelled from the spec: the `concurrent_log::ConcurrentLog` crate is not
under `src/`.  §4.1 of the spec: an ordered sequence with a monotone trim
floor `start_index` and `size` = next index to assign; the live entries
occupy absolute indices `start_index, start_index+1, ...`; `live` holds them
in order. -/
structure ConcurrentLog (α : Type) where
  start_index : Nat
  live : List α
deriving DecidableEq, Repr

/-- Modelled from the spec: `size()` is the next index to assign. -/
def ConcurrentLog.size {α : Type} (l : ConcurrentLog α) : Nat :=
  l.start_index + l.live.length

/-- Modelled from the spec: `get(index)` returns the entry iff
`start_index <= index < size`. -/
def ConcurrentLog.get {α : Type} (l : ConcurrentLog α) (i : Nat) : Option α :=
  if i < l.start_index then none else l.live[i - l.start_index]?

/-- Modelled from the spec: `push_with_finalize` (named `push_with_index` in
the crate as used by `NetworkHistoryLog::add`) assigns the next index, lets
the value record it, appends, and returns the assigned index. -/
def ConcurrentLog.push_with_index {α : Type} (l : ConcurrentLog α) (v : α)
    (f : α → Nat → α) : ConcurrentLog α × Nat :=
  let idx := l.size
  ({ l with live := l.live ++ [f v idx] }, idx)

/-- Modelled from the spec: plain `push` returns the assigned index. -/
def ConcurrentLog.push {α : Type} (l : ConcurrentLog α) (v : α) :
    ConcurrentLog α × Nat :=
  l.push_with_index v (fun a _ => a)

/-- Helper for `trim`: walk the live entries from the front, dropping while
the predicate holds and advancing the floor. -/
def trimGo {α : Type} (p : α → Bool) : List α → Nat → List α × Nat
  | [], s => ([], s)
  | x :: rest, s => if p x then trimGo p rest (s + 1) else (x :: rest, s)

/-- Modelled from the spec: `trim(predicate)` scans forward from
`start_index`, advancing it past entries satisfying the predicate, stopping
at the first entry that does not satisfy it (or at `size`). -/
def ConcurrentLog.trim {α : Type} (l : ConcurrentLog α) (p : α → Bool) :
    ConcurrentLog α :=
  let r := trimGo p l.live l.start_index
  { start_index := r.2, live := r.1 }

abbrev LogEntryId := Nat
abbrev EventId := Nat
abbrev UserId := Nat

/-- Type NetworkStateChange from the repository, one constructor per variant of
the tagged union.  The payload structs carried by the variants are opaque to
every operation modelled here (the code only inspects the tag and stores the
value), so each is abstracted as a `Nat`. -/
inductive NetworkStateChange where
  | NewUser (d : Nat)
  | UserModeChange (d : Nat)
  | UserAwayChange (d : Nat)
  | NewUserConnection (d : Nat)
  | UserConnectionDisconnected (d : Nat)
  | NewServer (d : Nat)
  | ServerQuit (d : Nat)
  | NewAuditLogEntry (d : Nat)
  | UserLoginChange (d : Nat)
  | ServicesUpdate (d : Nat)
  | HistoryServerUpdate (d : Nat)
  | EventComplete (d : Nat)
  | UserNickChange (d : Nat)
  | UserQuit (d : Nat)
  | ChannelModeChange (d : Nat)
  | ChannelTopicChange (d : Nat)
  | ListModeAdded (d : Nat)
  | ListModeRemoved (d : Nat)
  | MembershipFlagChange (d : Nat)
  | ChannelJoin (d : Nat)
  | ChannelKick (d : Nat)
  | ChannelPart (d : Nat)
  | ChannelInvite (d : Nat)
  | ChannelRename (d : Nat)
  | NewMessage (d : Nat)
deriving DecidableEq, Repr

/-- Entry record HistoryLogEntry from log.rs. -/
structure HistoryLogEntry where
  id : LogEntryId
  timestamp : Int
  source_event : EventId
  details : NetworkStateChange
deriving DecidableEq, Repr

/-- Structure NetworkHistoryLog from log.rs: the primary log plus the per-user
map of secondary indices.  The `HashMap` is modelled as an association
list. -/
structure NetworkHistoryLog where
  entries : ConcurrentLog HistoryLogEntry
  user_logs : List (UserId × ConcurrentLog LogEntryId)
deriving DecidableEq, Repr

/-- Association-list lookup modelling `HashMap::get`. -/
def lookupUser (u : UserId) :
    List (UserId × ConcurrentLog LogEntryId) → Option (ConcurrentLog LogEntryId)
  | [] => none
  | (k, v) :: rest => if k = u then some v else lookupUser u rest

/-- Constructor NetworkHistoryLog::new. -/
def NetworkHistoryLog.new : NetworkHistoryLog :=
  { entries := { start_index := 0, live := [] }, user_logs := [] }

/-- The allow-list match of `NetworkHistoryLog::add`, as a predicate (same
case split as the source `match`). -/
def storedForHistory : NetworkStateChange → Bool
  | .NewUser _ | .UserModeChange _ | .UserAwayChange _ | .NewUserConnection _
  | .UserConnectionDisconnected _ | .NewServer _ | .ServerQuit _
  | .NewAuditLogEntry _ | .UserLoginChange _ | .ServicesUpdate _
  | .HistoryServerUpdate _ | .EventComplete _ => false
  | .UserNickChange _ | .UserQuit _ | .ChannelModeChange _
  | .ChannelTopicChange _ | .ListModeAdded _ | .ListModeRemoved _
  | .MembershipFlagChange _ | .ChannelJoin _ | .ChannelKick _
  | .ChannelPart _ | .ChannelInvite _ | .ChannelRename _
  | .NewMessage _ => true

/-- Operation NetworkHistoryLog::add: excluded kinds return `None` with no side
effect; allow-listed kinds are pushed with the finalize callback
`|entry, index| entry.id = index` and the assigned id is returned. -/
def NetworkHistoryLog.add (log : NetworkHistoryLog) (details : NetworkStateChange)
    (source_event : EventId) (timestamp : Int) :
    NetworkHistoryLog × Option LogEntryId :=
  match details with
  | .NewUser _ | .UserModeChange _ | .UserAwayChange _ | .NewUserConnection _
  | .UserConnectionDisconnected _ | .NewServer _ | .ServerQuit _
  | .NewAuditLogEntry _ | .UserLoginChange _ | .ServicesUpdate _
  | .HistoryServerUpdate _ | .EventComplete _ => (log, none)
  | _ =>
    let r := log.entries.push_with_index
      { id := 0, timestamp := timestamp, source_event := source_event,
        details := details }
      (fun e i => { e with id := i })
    ({ log with entries := r.1 }, some r.2)

/-- Operation NetworkHistoryLog::get. -/
def NetworkHistoryLog.get (log : NetworkHistoryLog) (entry_id : LogEntryId) :
    Option HistoryLogEntry :=
  log.entries.get entry_id

/-- Map update for `add_entry_for_user`: push onto the existing per-user log,
or (for a brand-new user) insert a fresh default log and push onto it. -/
def pushUserEntry (u : UserId) (eid : LogEntryId) :
    List (UserId × ConcurrentLog LogEntryId) →
    List (UserId × ConcurrentLog LogEntryId)
  | [] => [(u, (ConcurrentLog.push { start_index := 0, live := [] } eid).1)]
  | (k, v) :: rest =>
    if k = u then (k, (v.push eid).1) :: rest
    else (k, v) :: pushUserEntry u eid rest

/-- Operation NetworkHistoryLog::add_entry_for_user. -/
def NetworkHistoryLog.add_entry_for_user (log : NetworkHistoryLog)
    (user_id : UserId) (entry_id : LogEntryId) : NetworkHistoryLog :=
  { log with user_logs := pushUserEntry user_id entry_id log.user_logs }

/-- The loop body of `UserHistoryLogIterator::next`, iterated to a list of
everything the iterator yields.  Mirrors the source exactly: the position is
incremented BEFORE each read of the secondary index; a missing primary entry
is skipped; a missing secondary position ends the iteration.  `fuel` bounds
the recursion and is chosen at the call site so that it never runs out
before the loop's own exit condition fires. -/
def forwardLoop (log : NetworkHistoryLog) (ulog : ConcurrentLog LogEntryId) :
    Nat → Nat → List HistoryLogEntry
  | 0, _ => []
  | fuel + 1, i =>
    match ulog.get (i + 1) with
    | none => []
    | some next_id =>
      match log.entries.get next_id with
      | some e => e :: forwardLoop log ulog fuel (i + 1)
      | none => forwardLoop log ulog fuel (i + 1)

/-- Operation NetworkHistoryLog::entries_for_user: the iterator starts with
`current_index = start_index()` of the user's secondary log (0 when the user
has no log, in which case iteration ends immediately). -/
def NetworkHistoryLog.entries_for_user (log : NetworkHistoryLog)
    (user : UserId) : List HistoryLogEntry :=
  match lookupUser user log.user_logs with
  | none => []
  | some ulog => forwardLoop log ulog ulog.size ulog.start_index

/-- The loop body of `ReverseUserHistoryLogIterator::next`, iterated to a
list: stop at position 0, otherwise decrement BEFORE each read; a missing
primary entry is skipped; a missing secondary position ends the
iteration. -/
def reverseLoop (log : NetworkHistoryLog) (ulog : ConcurrentLog LogEntryId) :
    Nat → Nat → List HistoryLogEntry
  | 0, _ => []
  | fuel + 1, i =>
    if i = 0 then []
    else
      match ulog.get (i - 1) with
      | none => []
      | some next_id =>
        match log.entries.get next_id with
        | some e => e :: reverseLoop log ulog fuel (i - 1)
        | none => reverseLoop log ulog fuel (i - 1)

/-- Operation NetworkHistoryLog::entries_for_user_reverse: starts with
`current_index = size()` of the user's secondary log. -/
def NetworkHistoryLog.entries_for_user_reverse (log : NetworkHistoryLog)
    (user : UserId) : List HistoryLogEntry :=
  match lookupUser user log.user_logs with
  | none => []
  | some ulog => reverseLoop log ulog (ulog.size + 1) ulog.size

/-- Operation NetworkHistoryLog::expire_entries: trim the primary log with
`entry.timestamp < older_than`, then trim every per-user log with
`id < new start_index`. -/
def NetworkHistoryLog.expire_entries (log : NetworkHistoryLog)
    (older_than : Int) : NetworkHistoryLog :=
  let entries := log.entries.trim (fun e => decide (e.timestamp < older_than))
  let new_first_index := entries.start_index
  { entries := entries,
    user_logs := log.user_logs.map
      (fun p => (p.1, p.2.trim (fun id => decide (id < new_first_index)))) }

/-- A sequence of `add` calls run in order, collecting each call's return
value. -/
def runAdds (log : NetworkHistoryLog) :
    List (NetworkStateChange × EventId × Int) →
    NetworkHistoryLog × List (Option LogEntryId)
  | [] => (log, [])
  | (d, e, t) :: rest =>
    let r := log.add d e t
    let rr := runAdds r.1 rest
    (rr.1, r.2 :: rr.2)


/-! ### Basic lemmas about the append-log primitive -/

theorem ConcurrentLog.get_ge_start {α : Type} {l : ConcurrentLog α} {i : Nat}
    {x : α} (h : l.get i = some x) : l.start_index ≤ i := by
  unfold ConcurrentLog.get at h
  split at h
  · exact absurd h (by simp)
  · omega

theorem ConcurrentLog.get_lt_size {α : Type} {l : ConcurrentLog α} {i : Nat}
    {x : α} (h : l.get i = some x) : i < l.size := by
  unfold ConcurrentLog.get at h
  split at h
  · exact absurd h (by simp)
  · obtain ⟨hlt, -⟩ := List.getElem?_eq_some.mp h
    unfold ConcurrentLog.size
    omega

theorem ConcurrentLog.size_push_with_index {α : Type} (l : ConcurrentLog α)
    (v : α) (f : α → Nat → α) :
    (l.push_with_index v f).1.size = l.size + 1 := by
  simp [ConcurrentLog.push_with_index, ConcurrentLog.size]
  omega

theorem ConcurrentLog.get_push_with_index_self {α : Type} (l : ConcurrentLog α)
    (v : α) (f : α → Nat → α) :
    (l.push_with_index v f).1.get l.size = some (f v l.size) := by
  simp only [ConcurrentLog.push_with_index, ConcurrentLog.get,
    ConcurrentLog.size]
  rw [if_neg (by omega)]
  have : l.start_index + l.live.length - l.start_index = l.live.length := by
    omega
  rw [this]
  simp

theorem ConcurrentLog.get_push_with_index_lt {α : Type} (l : ConcurrentLog α)
    (v : α) (f : α → Nat → α) (i : Nat) (h : i < l.size) :
    (l.push_with_index v f).1.get i = l.get i := by
  simp only [ConcurrentLog.push_with_index, ConcurrentLog.get]
  by_cases hs : i < l.start_index
  · rw [if_pos hs, if_pos hs]
  · rw [if_neg hs, if_neg hs]
    have hlen : i - l.start_index < l.live.length := by
      unfold ConcurrentLog.size at h; omega
    rw [List.getElem?_append_left hlen]

/-! ### Characterizing lemmas for add -/

theorem add_eq_of_stored (log : NetworkHistoryLog) (d : NetworkStateChange)
    (e : EventId) (t : Int) (h : storedForHistory d = true) :
    log.add d e t =
      ({ log with
          entries := (log.entries.push_with_index
            { id := 0, timestamp := t, source_event := e, details := d }
            (fun x i => { x with id := i })).1 },
        some log.entries.size) := by
  cases d <;> first
    | rfl
    | simp [storedForHistory] at h

theorem add_eq_of_not_stored (log : NetworkHistoryLog) (d : NetworkStateChange)
    (e : EventId) (t : Int) (h : storedForHistory d = false) :
    log.add d e t = (log, none) := by
  cases d <;> first
    | rfl
    | simp [storedForHistory] at h

/-! ### Concrete scenario for the end-to-end claim -/

/-- The end-to-end scenario state: three new-message events at timestamps
100, 200 and 300 are added and each indexed into user 7's log. -/
def scenario_three_messages : NetworkHistoryLog :=
  let l0 := NetworkHistoryLog.new
  let s1 := l0.add (.NewMessage 1) 11 100
  let l1 := s1.1.add_entry_for_user 7 (s1.2.getD 0)
  let s2 := l1.add (.NewMessage 2) 12 200
  let l2 := s2.1.add_entry_for_user 7 (s2.2.getD 0)
  let s3 := l2.add (.NewMessage 3) 13 300
  s3.1.add_entry_for_user 7 (s3.2.getD 0)

/-- C1: the claim states that after three new-message events at timestamps
100, 200, 300 are added and each indexed into user 7's log,
`entries_for_user` yields all three entries in ascending order.  The code
does not: the forward iterator increments its position before the first
read of the secondary index, so the entry at the index's start position
(timestamp 100) is never yielded; only the entries at timestamps 200 and
300 are.  The reverse iterator, by contrast, covers all three.  This
theorem evaluates the code's behavior at the failing input. -/
theorem entries_for_user_skips_first_indexed :
    (scenario_three_messages.entries_for_user 7).map HistoryLogEntry.timestamp
        = [200, 300] ∧
    (scenario_three_messages.entries_for_user 7).map HistoryLogEntry.timestamp
        ≠ [100, 200, 300] ∧
    (scenario_three_messages.entries_for_user_reverse 7).map
        HistoryLogEntry.timestamp = [300, 200, 100] := by
  refine ⟨by decide, by decide, by decide⟩

/-- Hole-tolerance scenario state: three new-message events (ids 0, 1, 2 at
timestamps 100, 200, 300), user 7's secondary index holding them in the
order [1, 0, 2], then expiry at timestamp 150, which trims the primary
entry 0 but leaves id 0 as a hole in the secondary index. -/
def scenario_hole : NetworkHistoryLog :=
  let l0 := NetworkHistoryLog.new
  let s1 := l0.add (.NewMessage 1) 11 100
  let s2 := s1.1.add (.NewMessage 2) 12 200
  let s3 := s2.1.add (.NewMessage 3) 13 300
  let l1 := s3.1.add_entry_for_user 7 1
  let l2 := l1.add_entry_for_user 7 0
  let l3 := l2.add_entry_for_user 7 2
  l3.expire_entries 150

/-- C2: with the secondary index [a, b, c] = [1, 0, 2] and the primary
entry for b = 0 trimmed, the claim states that `entries_for_user` yields
[entry(a), entry(c)] = ids [1, 2] and `entries_for_user_reverse` yields
[entry(c), entry(a)] = ids [2, 1].  The reverse direction behaves as
claimed (the hole is silently skipped and iteration ends at the floor),
but the forward direction yields only [entry(c)] = [2]: the pre-increment
of the iterator position skips the secondary index's start position, which
holds a.  This theorem evaluates the code's behavior at that input. -/
theorem hole_tolerance_forward_reverse :
    (scenario_hole.entries_for_user 7).map HistoryLogEntry.id = [2] ∧
    (scenario_hole.entries_for_user 7).map HistoryLogEntry.id ≠ [1, 2] ∧
    (scenario_hole.entries_for_user_reverse 7).map HistoryLogEntry.id
        = [2, 1] ∧
    scenario_hole.get 0 = none ∧
    (scenario_hole.get 1).isSome = true ∧
    (scenario_hole.get 2).isSome = true := by
  refine ⟨by decide, by decide, by decide, by decide, by decide, by decide⟩

/-- C3: every kind outside the allow-list (new user, user mode change, away
change, connection lifecycle, server lifecycle, audit log, login change,
services and history-server bookkeeping, event-complete) makes `add` return
`None` and leave the log - and hence its primary `size` - unchanged, while
every allow-listed kind (in particular new message) makes `add` return
`Some` of the next id. -/
theorem add_allow_list_enforcement (log : NetworkHistoryLog) (e : EventId)
    (t : Int) (d : Nat) :
    log.add (.NewUser d) e t = (log, none) ∧
    log.add (.UserModeChange d) e t = (log, none) ∧
    log.add (.UserAwayChange d) e t = (log, none) ∧
    log.add (.NewUserConnection d) e t = (log, none) ∧
    log.add (.UserConnectionDisconnected d) e t = (log, none) ∧
    log.add (.NewServer d) e t = (log, none) ∧
    log.add (.ServerQuit d) e t = (log, none) ∧
    log.add (.NewAuditLogEntry d) e t = (log, none) ∧
    log.add (.UserLoginChange d) e t = (log, none) ∧
    log.add (.ServicesUpdate d) e t = (log, none) ∧
    log.add (.HistoryServerUpdate d) e t = (log, none) ∧
    log.add (.EventComplete d) e t = (log, none) ∧
    (log.add (.UserNickChange d) e t).2 = some log.entries.size ∧
    (log.add (.UserQuit d) e t).2 = some log.entries.size ∧
    (log.add (.ChannelModeChange d) e t).2 = some log.entries.size ∧
    (log.add (.ChannelTopicChange d) e t).2 = some log.entries.size ∧
    (log.add (.ListModeAdded d) e t).2 = some log.entries.size ∧
    (log.add (.ListModeRemoved d) e t).2 = some log.entries.size ∧
    (log.add (.MembershipFlagChange d) e t).2 = some log.entries.size ∧
    (log.add (.ChannelJoin d) e t).2 = some log.entries.size ∧
    (log.add (.ChannelKick d) e t).2 = some log.entries.size ∧
    (log.add (.ChannelPart d) e t).2 = some log.entries.size ∧
    (log.add (.ChannelInvite d) e t).2 = some log.entries.size ∧
    (log.add (.ChannelRename d) e t).2 = some log.entries.size ∧
    (log.add (.NewMessage d) e t).2 = some log.entries.size :=
  ⟨rfl, rfl, rfl, rfl, rfl, rfl, rfl, rfl, rfl, rfl, rfl, rfl, rfl, rfl,
   rfl, rfl, rfl, rfl, rfl, rfl, rfl, rfl, rfl, rfl, rfl⟩

/-- C10: for a user with no secondary index, both traversals yield nothing;
the accessors are read-only (they take the log unchanged and only produce a
sequence), so no index is created. -/
theorem entries_for_user_absent_empty (log : NetworkHistoryLog) (u : UserId)
    (h : lookupUser u log.user_logs = none) :
    log.entries_for_user u = [] ∧ log.entries_for_user_reverse u = [] := by
  unfold NetworkHistoryLog.entries_for_user
    NetworkHistoryLog.entries_for_user_reverse
  rw [h]
  exact ⟨rfl, rfl⟩

/-- Witness for C10 at a concrete input: a fresh log has no index for user
3, and both traversals yield nothing. -/
theorem entries_for_user_absent_empty_witness :
    lookupUser 3 NetworkHistoryLog.new.user_logs = none ∧
    (NetworkHistoryLog.new.entries_for_user 3 = [] ∧
      NetworkHistoryLog.new.entries_for_user_reverse 3 = []) :=
  ⟨rfl, entries_for_user_absent_empty NetworkHistoryLog.new 3 rfl⟩

/-! ### Preservation of stored entries under later adds -/

theorem add_preserves_get (log : NetworkHistoryLog) (d : NetworkStateChange)
    (e : EventId) (t : Int) (i : LogEntryId) (x : HistoryLogEntry)
    (h : log.get i = some x) : (log.add d e t).1.get i = some x := by
  cases hst : storedForHistory d
  · rw [add_eq_of_not_stored log d e t hst]
    exact h
  · rw [add_eq_of_stored log d e t hst]
    exact (ConcurrentLog.get_push_with_index_lt log.entries
      { id := 0, timestamp := t, source_event := e, details := d }
      (fun x j => { x with id := j }) i
      (ConcurrentLog.get_lt_size h)).trans h

theorem runAdds_preserves_get (log : NetworkHistoryLog)
    (calls : List (NetworkStateChange × EventId × Int)) (i : LogEntryId)
    (x : HistoryLogEntry) (h : log.get i = some x) :
    (runAdds log calls).1.get i = some x := by
  induction calls generalizing log with
  | nil => exact h
  | cons c rest ih =>
    obtain ⟨d, e, t⟩ := c
    exact ih (log.add d e t).1 (add_preserves_get log d e t i x h)

/-- C9: round trip of add and get.  If `add(d, e, t)` is accepted with id
`i`, then `get(i)` returns an entry whose id is `i`, whose timestamp is
`t`, whose source_event is `e` and whose details are `d` - both immediately
and after any further sequence of adds (no expiry having removed it). -/
theorem add_get_round_trip (log : NetworkHistoryLog) (d : NetworkStateChange)
    (e : EventId) (t : Int) (log' : NetworkHistoryLog) (i : LogEntryId)
    (h : log.add d e t = (log', some i)) :
    log'.get i
        = some { id := i, timestamp := t, source_event := e, details := d } ∧
    ∀ calls, (runAdds log' calls).1.get i
        = some { id := i, timestamp := t, source_event := e, details := d } := by
  cases hst : storedForHistory d
  · rw [add_eq_of_not_stored log d e t hst] at h
    simp at h
  · rw [add_eq_of_stored log d e t hst] at h
    injection h with hA hB
    injection hB with hB
    subst hA
    subst hB
    refine ⟨?_, fun calls => ?_⟩
    · exact ConcurrentLog.get_push_with_index_self log.entries
        { id := 0, timestamp := t, source_event := e, details := d }
        (fun x j => { x with id := j })
    · exact runAdds_preserves_get _ calls _ _
        (ConcurrentLog.get_push_with_index_self log.entries
          { id := 0, timestamp := t, source_event := e, details := d }
          (fun x j => { x with id := j }))

/-- The log state after one accepted add on a fresh log, for the round-trip
witness. -/
def round_trip_log : NetworkHistoryLog :=
  (NetworkHistoryLog.new.add (.ChannelJoin 5) 21 400).1

/-- Witness for C9 at a concrete input: adding a channel-join at timestamp
400 to a fresh log returns id 0, and `get 0` returns exactly that entry. -/
theorem add_get_round_trip_witness :
    NetworkHistoryLog.new.add (.ChannelJoin 5) 21 400
      = (round_trip_log, some 0) ∧
    (round_trip_log.get 0 = some
        { id := 0, timestamp := 400, source_event := 21,
          details := .ChannelJoin 5 } ∧
      ∀ calls, (runAdds round_trip_log calls).1.get 0 = some
        { id := 0, timestamp := 400, source_event := 21,
          details := .ChannelJoin 5 }) :=
  ⟨by decide, add_get_round_trip NetworkHistoryLog.new _ 21 400 _ 0 (by decide)⟩

/-! ### Id assignment across a sequence of adds -/

theorem range'_pairwise_lt (s n : Nat) :
    (List.range' s n).Pairwise (· < ·) := by
  induction n generalizing s with
  | zero => simp
  | succ n ih =>
    rw [List.range'_succ]
    refine List.Pairwise.cons ?_ (ih (s + 1))
    intro m hm
    rw [List.mem_range'_1] at hm
    omega

theorem runAdds_ids (log : NetworkHistoryLog)
    (calls : List (NetworkStateChange × EventId × Int)) :
    (runAdds log calls).2.reduceOption
      = List.range' log.entries.size
          (runAdds log calls).2.reduceOption.length ∧
    ∀ i ∈ (runAdds log calls).2.reduceOption,
      ∃ x, (runAdds log calls).1.get i = some x ∧ x.id = i := by
  induction calls generalizing log with
  | nil => exact ⟨rfl, by simp [runAdds]⟩
  | cons c rest ih =>
    obtain ⟨d, e, t⟩ := c
    have hstep : runAdds log ((d, e, t) :: rest)
        = ((runAdds (log.add d e t).1 rest).1,
           (log.add d e t).2 :: (runAdds (log.add d e t).1 rest).2) := rfl
    cases hst : storedForHistory d
    · have hadd := add_eq_of_not_stored log d e t hst
      rw [hstep, hadd]
      simpa using ih log
    · have hadd := add_eq_of_stored log d e t hst
      have hsize : (log.add d e t).1.entries.size = log.entries.size + 1 := by
        rw [hadd]
        exact ConcurrentLog.size_push_with_index log.entries
          { id := 0, timestamp := t, source_event := e, details := d }
          (fun x j => { x with id := j })
      obtain ⟨ih1, ih2⟩ := ih (log.add d e t).1
      have hsnd : (log.add d e t).2 = some log.entries.size := by rw [hadd]
      constructor
      · rw [hstep, hsnd]
        simp only [List.reduceOption_cons_of_some, List.length_cons]
        rw [List.range'_succ, ih1, hsize]
        simp [List.length_range']
      · intro i hi
        rw [hstep, hsnd] at hi
        simp only [List.reduceOption_cons_of_some, List.mem_cons] at hi
        rcases hi with hi | hi
        · subst hi
          have hself : (log.add d e t).1.get log.entries.size = some
              { id := log.entries.size, timestamp := t, source_event := e,
                details := d } := by
            rw [hadd]
            exact ConcurrentLog.get_push_with_index_self log.entries
              { id := 0, timestamp := t, source_event := e, details := d }
              (fun x j => { x with id := j })
          exact ⟨_, runAdds_preserves_get _ rest _ _ hself, rfl⟩
        · exact ih2 i hi

/-- C4: across any sequence of add calls, the accepted ids form exactly the
gapless run starting at the primary log's size - hence strictly increasing,
with no gaps and no duplicates - and each stored entry's id field equals
its assigned index in the primary log. -/
theorem add_ids_strictly_increasing_gapless (log : NetworkHistoryLog)
    (calls : List (NetworkStateChange × EventId × Int)) :
    (runAdds log calls).2.reduceOption
      = List.range' log.entries.size
          (runAdds log calls).2.reduceOption.length ∧
    List.Chain' (· < ·) (runAdds log calls).2.reduceOption ∧
    (runAdds log calls).2.reduceOption.Nodup ∧
    ∀ i ∈ (runAdds log calls).2.reduceOption,
      ∃ x, (runAdds log calls).1.get i = some x ∧ x.id = i := by
  obtain ⟨h1, h2⟩ := runAdds_ids log calls
  refine ⟨h1, ?_, ?_, h2⟩
  · rw [h1]
    exact (range'_pairwise_lt _ _).chain'
  · rw [h1]
    exact (range'_pairwise_lt _ _).imp Nat.ne_of_lt

/-! ### Trim decomposition and expiry -/

theorem trimGo_spec {α : Type} (p : α → Bool) (xs : List α) (s : Nat) :
    ∃ pre post, xs = pre ++ post ∧ trimGo p xs s = (post, s + pre.length) ∧
      (∀ x ∈ pre, p x = true) ∧ ∀ z zs, post = z :: zs → p z = false := by
  induction xs generalizing s with
  | nil =>
    exact ⟨[], [], rfl, rfl, by simp, by intro z zs h; cases h⟩
  | cons x rest ih =>
    cases hp : p x
    · refine ⟨[], x :: rest, rfl, ?_, by simp, ?_⟩
      · simp [trimGo, hp]
      · intro z zs h
        cases h
        exact hp
    · obtain ⟨pre, post, h1, h2, h3, h4⟩ := ih (s + 1)
      refine ⟨x :: pre, post, by simp [h1], ?_, ?_, h4⟩
      · have : s + 1 + pre.length = s + (x :: pre).length := by
          simp
          omega
        simp [trimGo, hp, h2, this]
      · intro y hy
        rcases List.mem_cons.mp hy with rfl | hy
        · exact hp
        · exact h3 y hy

theorem ConcurrentLog.trim_spec {α : Type} (l : ConcurrentLog α)
    (p : α → Bool) :
    ∃ pre post, l.live = pre ++ post ∧
      (l.trim p).start_index = l.start_index + pre.length ∧
      (l.trim p).live = post ∧ (∀ x ∈ pre, p x = true) := by
  obtain ⟨pre, post, h1, h2, h3, -⟩ := trimGo_spec p l.live l.start_index
  exact ⟨pre, post, h1, by simp [ConcurrentLog.trim, h2],
    by simp [ConcurrentLog.trim, h2], h3⟩

theorem ConcurrentLog.trim_get_ge {α : Type} (l : ConcurrentLog α)
    (p : α → Bool) (i : Nat) (h : (l.trim p).start_index ≤ i) :
    (l.trim p).get i = l.get i := by
  obtain ⟨pre, post, h1, h2, h3, -⟩ := ConcurrentLog.trim_spec l p
  rw [h2] at h
  unfold ConcurrentLog.get
  rw [h2, h3, h1]
  rw [if_neg (by omega), if_neg (by omega)]
  rw [List.getElem?_append_right (by omega)]
  congr 1
  omega

theorem ConcurrentLog.trim_removed_satisfies {α : Type} (l : ConcurrentLog α)
    (p : α → Bool) (i : Nat) (x : α) (hx : l.get i = some x)
    (hnone : (l.trim p).get i = none) : p x = true := by
  obtain ⟨pre, post, h1, h2, h3, h4⟩ := ConcurrentLog.trim_spec l p
  by_cases hcase : (l.trim p).start_index ≤ i
  · rw [ConcurrentLog.trim_get_ge l p i hcase, hx] at hnone
    cases hnone
  · have hi1 : l.start_index ≤ i := ConcurrentLog.get_ge_start hx
    rw [h2] at hcase
    have hx' : l.live[i - l.start_index]? = some x := by
      unfold ConcurrentLog.get at hx
      rw [if_neg (by omega)] at hx
      exact hx
    rw [h1, List.getElem?_append_left (by omega)] at hx'
    obtain ⟨hlt, hget⟩ := List.getElem?_eq_some.mp hx'
    refine h4 x ?_
    rw [← hget]
    apply List.getElem_mem

theorem lookupUser_map_trim (u : UserId) (n : Nat)
    (l : List (UserId × ConcurrentLog LogEntryId)) :
    lookupUser u
        (l.map (fun p => (p.1, p.2.trim (fun id => decide (id < n)))))
      = (lookupUser u l).map (fun v => v.trim (fun id => decide (id < n))) := by
  induction l with
  | nil => rfl
  | cons p rest ih =>
    obtain ⟨k, v⟩ := p
    by_cases hk : k = u
    · simp [lookupUser, hk]
    · simp [lookupUser, hk, ih]

/-- C5: expiry removes only a contiguous prefix of the primary log starting
at its floor (retained entries above the new floor are untouched); every
removed entry satisfied the predicate timestamp < T, so - in particular with
non-decreasing timestamps - no entry with timestamp >= T is ever removed;
and each per-user secondary log is then trimmed with the predicate
id < new start_index. -/
theorem expire_entries_prefix_only (log : NetworkHistoryLog) (T : Int) :
    (∃ k, (log.expire_entries T).entries.start_index
          = log.entries.start_index + k ∧
        (log.expire_entries T).entries.live = log.entries.live.drop k) ∧
    (∀ i x, log.get i = some x →
      (log.expire_entries T).entries.start_index ≤ i →
      (log.expire_entries T).get i = some x) ∧
    (∀ i x, log.get i = some x → (log.expire_entries T).get i = none →
      x.timestamp < T) ∧
    (List.Chain' (fun a b => a.timestamp ≤ b.timestamp) log.entries.live →
      ∀ i x, log.get i = some x → T ≤ x.timestamp →
        (log.expire_entries T).get i = some x) ∧
    (∀ u ul, lookupUser u log.user_logs = some ul →
      lookupUser u (log.expire_entries T).user_logs
        = some (ul.trim (fun id =>
            decide (id < (log.expire_entries T).entries.start_index)))) := by
  obtain ⟨pre, post, h1, h2, h3, h4⟩ :=
    ConcurrentLog.trim_spec log.entries (fun e => decide (e.timestamp < T))
  have hpres : ∀ i x, log.get i = some x →
      (log.expire_entries T).entries.start_index ≤ i →
      (log.expire_entries T).get i = some x := by
    intro i x hx hge
    exact (ConcurrentLog.trim_get_ge log.entries
      (fun e => decide (e.timestamp < T)) i hge).trans hx
  have hrem : ∀ i x, log.get i = some x →
      (log.expire_entries T).get i = none → x.timestamp < T := by
    intro i x hx hnone
    have := ConcurrentLog.trim_removed_satisfies log.entries
      (fun e => decide (e.timestamp < T)) i x hx hnone
    simpa using this
  refine ⟨⟨pre.length, h2, ?_⟩, hpres, hrem, ?_, ?_⟩
  · show (log.entries.trim (fun e => decide (e.timestamp < T))).live
      = log.entries.live.drop pre.length
    rw [h3, h1, List.drop_left]
  · intro _ i x hx hts
    cases hcase : (log.expire_entries T).get i with
    | none =>
      have := hrem i x hx hcase
      omega
    | some y =>
      have hge : (log.expire_entries T).entries.start_index ≤ i :=
        ConcurrentLog.get_ge_start
          (l := log.entries.trim (fun e => decide (e.timestamp < T)))
          (i := i) (x := y) hcase
      rw [← hcase]
      exact hpres i x hx hge
  · intro u ul hul
    show lookupUser u (log.user_logs.map (fun p => (p.1, p.2.trim (fun id =>
        decide (id < (log.entries.trim
          (fun e => decide (e.timestamp < T))).start_index))))) = _
    rw [lookupUser_map_trim, hul]
    rfl

/-- Concrete log for the expiry witness: three messages at timestamps 100,
200, 300, ids 0, 1, 2, each indexed for user 7. -/
def expire_witness_log : NetworkHistoryLog :=
  let l0 := NetworkHistoryLog.new
  let s1 := l0.add (.NewMessage 1) 11 100
  let l1 := s1.1.add_entry_for_user 7 0
  let s2 := l1.add (.NewMessage 2) 12 200
  let l2 := s2.1.add_entry_for_user 7 1
  let s3 := l2.add (.NewMessage 3) 13 300
  s3.1.add_entry_for_user 7 2

/-- Witness for C5 at a concrete input: expiring at 250 keeps the entry
with timestamp 300 (id 2) untouched and removes the two older ones. -/
theorem expire_entries_prefix_only_witness :
    (expire_witness_log.expire_entries 250).get 2
      = some { id := 2, timestamp := 300, source_event := 13,
               details := .NewMessage 3 } ∧
    (expire_witness_log.expire_entries 250).get 0 = none ∧
    (expire_witness_log.expire_entries 250).get 1 = none :=
  ⟨(expire_entries_prefix_only expire_witness_log 250).2.2.2.1
      (by
        show List.Chain' (fun a b : HistoryLogEntry => a.timestamp ≤ b.timestamp)
          [{ id := 0, timestamp := 100, source_event := 11,
             details := .NewMessage 1 },
           { id := 1, timestamp := 200, source_event := 12,
             details := .NewMessage 2 },
           { id := 2, timestamp := 300, source_event := 13,
             details := .NewMessage 3 }]
        simp [List.chain'_cons])
      2 _ (by decide) (by decide),
   by decide, by decide⟩

/-- Concrete call list for the id-assignment witness: an accepted add, a
rejected add, then another accepted add. -/
def id_witness_calls : List (NetworkStateChange × EventId × Int) :=
  [(.NewMessage 1, 11, 100), (.NewUser 2, 12, 150), (.ChannelPart 3, 13, 200)]

/-- Witness for C4 at a concrete input: the accepted ids are the gapless
run [0, 1] and the entry stored under id 1 carries id 1. -/
theorem add_ids_strictly_increasing_gapless_witness :
    (runAdds NetworkHistoryLog.new id_witness_calls).2.reduceOption = [0, 1] ∧
    ∃ x, (runAdds NetworkHistoryLog.new id_witness_calls).1.get 1 = some x ∧
      x.id = 1 :=
  ⟨by decide,
   (add_ids_strictly_increasing_gapless NetworkHistoryLog.new
      id_witness_calls).2.2.2 1 (by decide)⟩

/-! ### The CHATHISTORY command handler (chathistory.rs) -/

/-- Error payload of `CommandError::Fail` as constructed in chathistory.rs:
command tag, machine-readable code, context string and human-readable
description.  Rust strings are modelled as `List Char`. -/
structure CommandFail where
  command : List Char
  code : List Char
  context : List Char
  description : List Char
deriving DecidableEq, Repr

/-- Model of `str::split_once`: split at the first occurrence of the
separator, or return `none` when it is absent. -/
def split_once (s : List Char) (c : Char) : Option (List Char × List Char) :=
  match s with
  | [] => none
  | x :: rest =>
    if x = c then some ([], rest)
    else
      match split_once rest c with
      | some (a, b) => some (x :: a, b)
      | none => none

/-- Decimal digits to a natural number, for the timestamp and limit
models. -/
def digitsToNat (s : List Char) : Nat :=
  s.foldl (fun acc c => acc * 10 + (c.toNat - 48)) 0

/-- Modelled from the spec: `utils::parse_timestamp` is not under src/; the
spec only requires a notion of a parseable timestamp, modelled here as a
nonempty all-digit string of seconds. -/
def parse_timestamp (s : List Char) : Option Int :=
  if s ≠ [] ∧ s.all Char.isDigit then some (Int.ofNat (digitsToNat s))
  else none

/-- Context string of the msgref errors: `subcommand` or
`subcommand ++ " " ++ target`, mirroring the `match target` in
chathistory.rs. -/
def msgref_context (subcommand : List Char) (target : Option (List Char)) :
    List Char :=
  match target with
  | some t => subcommand ++ ' ' :: t
  | none => subcommand

/-- Model of the Rust debug escaping applied by the msgref error
description's use of the debug format: quote and backslash are escaped
(control-character escapes are irrelevant to the claims and omitted). -/
def debug_escape : List Char → List Char
  | [] => []
  | c :: rest =>
    if c = '"' ∨ c = '\\' then '\\' :: c :: debug_escape rest
    else c :: debug_escape rest

/-- Debug-quoted rendering of a string, modelling the Rust debug format of
a string value. -/
def debug_quote (s : List Char) : List Char :=
  '"' :: debug_escape s ++ ['"']

/-- The malformed-msgref error of the wildcard arm of `parse_msgref`. -/
def malformed_msgref (subcommand : List Char) (target : Option (List Char))
    (msgref : List Char) : CommandFail :=
  { command := "CHATHISTORY".toList, code := "INVALID_MSGREFTYPE".toList,
    context := msgref_context subcommand target,
    description :=
      debug_quote msgref ++ " is not a valid message reference".toList }

/-- Function `parse_msgref` from chathistory.rs: a timestamp reference is
parsed with `parse_timestamp` (failure gives INVALID_PARAMS), a msgid
reference is recognized but rejected as unsupported (INVALID_MSGREFTYPE),
and anything else is rejected as malformed (INVALID_MSGREFTYPE with the
offending value in the description). -/
def parse_msgref (subcommand : List Char) (target : Option (List Char))
    (msgref : List Char) : Except CommandFail Int :=
  match split_once msgref '=' with
  | some (key, rest) =>
    if key = "timestamp".toList then
      match parse_timestamp rest with
      | some ts => Except.ok ts
      | none => Except.error
          { command := "CHATHISTORY".toList, code := "INVALID_PARAMS".toList,
            context := subcommand,
            description := "Invalid timestamp".toList }
    else if key = "msgid".toList then
      Except.error
        { command := "CHATHISTORY".toList,
          code := "INVALID_MSGREFTYPE".toList,
          context := msgref_context subcommand target,
          description :=
            "msgid-based history requests are not supported yet".toList }
    else Except.error (malformed_msgref subcommand target msgref)
  | none => Except.error (malformed_msgref subcommand target msgref)

/-- Model of `usize::from_str` as used through `NonZeroUsize`: an optional
leading plus sign followed by a nonempty digit string (overflow is not
modelled; the claims do not depend on it). -/
def parse_usize (s : List Char) : Option Nat :=
  match s with
  | '+' :: rest =>
    if rest ≠ [] ∧ rest.all Char.isDigit then some (digitsToNat rest)
    else none
  | _ =>
    if s ≠ [] ∧ s.all Char.isDigit then some (digitsToNat s) else none

/-- Function `parse_limit` from chathistory.rs: parse a `NonZeroUsize`,
mapping any failure (including zero) to an INVALID_PARAMS error. -/
def parse_limit (s : List Char) : Except CommandFail Nat :=
  match parse_usize s with
  | some n =>
    if n = 0 then
      Except.error
        { command := "CHATHISTORY".toList, code := "INVALID_PARAMS".toList,
          context := [], description := "Invalid limit".toList }
    else Except.ok n
  | none =>
    Except.error
      { command := "CHATHISTORY".toList, code := "INVALID_PARAMS".toList,
        context := [], description := "Invalid limit".toList }

/-- Type TargetId from the repository: a conversation target is a user or
a channel. -/
inductive TargetId where
  | User (id : UserId)
  | Channel (id : Nat)
deriving DecidableEq, Repr

/-- Modelled from the spec: `HistoryService::list_targets` is not under
src/.  Spec section 4.3: walk the user's history backward (newest first)
within the window; the first time a target is seen it is recorded with that
(necessarily most recent in-range) timestamp, later occurrences are
ignored; stop after `limit` distinct targets.  The backward walk over the
user's history is abstracted as its list of (target, timestamp) pairs,
newest first; `acc` accumulates the recorded pairs. -/
def list_targets_go (lower upper : Int) (limit : Nat)
    (acc : List (TargetId × Int)) :
    List (TargetId × Int) → List (TargetId × Int)
  | [] => acc
  | (t, ts) :: rest =>
    if acc.length = limit then acc
    else if lower ≤ ts ∧ ts ≤ upper ∧ t ∉ acc.map Prod.fst then
      list_targets_go lower upper limit ((t, ts) :: acc) rest
    else list_targets_go lower upper limit acc rest

/-- Modelled from the spec: the service-level target listing over the
backward walk `events`. -/
def list_targets (events : List (TargetId × Int)) (lower upper : Int)
    (limit : Nat) : List (TargetId × Int) :=
  list_targets_go lower upper limit [] events

/-- The handler-side `list_targets` of chathistory.rs sorts the collected
pairs ascending by timestamp before presenting them
(`sort_unstable_by_key(timestamp)`, modelled by an insertion sort on the
same key). -/
def presented_targets (events : List (TargetId × Int)) (lower upper : Int)
    (limit : Nat) : List (TargetId × Int) :=
  List.insertionSort (fun p q => p.2 ≤ q.2)
    (list_targets events lower upper limit)

/-- The TARGETS branch of `handle_chathistory`: parse both timestamp bounds
and the limit, then query with the bounds normalized to (min, max) and
present the sorted result. -/
def handle_targets (events : List (TargetId × Int))
    (arg_1 arg_2 arg_3 : List Char) :
    Except CommandFail (List (TargetId × Int)) := do
  let from_ts ← parse_msgref "TARGETS".toList none arg_1
  let to_ts ← parse_msgref "TARGETS".toList none arg_2
  let limit ← parse_limit arg_3
  pure (presented_targets events (min from_ts to_ts) (max from_ts to_ts)
    limit)

instance : IsTotal (TargetId × Int) (fun p q => p.2 ≤ q.2) :=
  ⟨fun p q => Int.le_total p.2 q.2⟩

instance : IsTrans (TargetId × Int) (fun p q => p.2 ≤ q.2) :=
  ⟨fun _ _ _ h1 h2 => le_trans h1 h2⟩

/-! ### Message-reference parsing behavior -/

theorem split_once_append (a b : List Char) (c : Char) (h : c ∉ a) :
    split_once (a ++ c :: b) c = some (a, b) := by
  induction a with
  | nil => simp [split_once]
  | cons x rest ih =>
    have hxc : ¬ x = c := fun hx => h (hx ▸ List.mem_cons_self x rest)
    have hrest : c ∉ rest := fun hc => h (List.mem_cons_of_mem x hc)
    simp [split_once, hxc, ih hrest]

theorem split_once_eq_some (s a b : List Char) (c : Char)
    (h : split_once s c = some (a, b)) : s = a ++ c :: b := by
  induction s generalizing a with
  | nil => cases h
  | cons x rest ih =>
    unfold split_once at h
    by_cases hxc : x = c
    · rw [if_pos hxc] at h
      injection h with h
      injection h with h1 h2
      subst hxc
      subst h1
      subst h2
      rfl
    · rw [if_neg hxc] at h
      cases hsp : split_once rest c with
      | none => rw [hsp] at h; cases h
      | some p =>
        obtain ⟨a', b'⟩ := p
        rw [hsp] at h
        injection h with h
        injection h with h1 h2
        subst h1
        subst h2
        simpa using ih a' (by rw [hsp])

/-- C6: for every msgref argument, a msgid reference is rejected with code
INVALID_MSGREFTYPE; any string of neither the timestamp nor the msgid form
is rejected with code INVALID_MSGREFTYPE and a description naming the
invalid value; a timestamp reference with an unparseable timestamp is
rejected with code INVALID_PARAMS; and a timestamp reference with a
parseable timestamp succeeds with that timestamp. -/
theorem parse_msgref_cases (sub : List Char) (tgt : Option (List Char)) :
    (∀ id_s : List Char, ∃ f,
      parse_msgref sub tgt ("msgid=".toList ++ id_s) = Except.error f ∧
      f.code = "INVALID_MSGREFTYPE".toList) ∧
    (∀ s : List Char, (∀ r, s ≠ "timestamp=".toList ++ r) →
      (∀ r, s ≠ "msgid=".toList ++ r) → ∃ f,
      parse_msgref sub tgt s = Except.error f ∧
      f.code = "INVALID_MSGREFTYPE".toList ∧
      f.description
        = debug_quote s ++ " is not a valid message reference".toList) ∧
    (∀ ts_s : List Char, parse_timestamp ts_s = none → ∃ f,
      parse_msgref sub tgt ("timestamp=".toList ++ ts_s) = Except.error f ∧
      f.code = "INVALID_PARAMS".toList) ∧
    (∀ ts_s : List Char, ∀ t : Int, parse_timestamp ts_s = some t →
      parse_msgref sub tgt ("timestamp=".toList ++ ts_s) = Except.ok t) := by
  have hts : ∀ ts_s : List Char,
      parse_msgref sub tgt ("timestamp=".toList ++ ts_s)
        = match parse_timestamp ts_s with
          | some ts => Except.ok ts
          | none => Except.error
              { command := "CHATHISTORY".toList,
                code := "INVALID_PARAMS".toList, context := sub,
                description := "Invalid timestamp".toList } := by
    intro ts_s
    have hsp : split_once ("timestamp=".toList ++ ts_s) '='
        = some ("timestamp".toList, ts_s) :=
      split_once_append "timestamp".toList ts_s '=' (by decide)
    unfold parse_msgref
    rw [hsp]
    rfl
  refine ⟨?_, ?_, ?_, ?_⟩
  · intro id_s
    have hsp : split_once ("msgid=".toList ++ id_s) '='
        = some ("msgid".toList, id_s) :=
      split_once_append "msgid".toList id_s '=' (by decide)
    have hf : parse_msgref sub tgt ("msgid=".toList ++ id_s) = Except.error
        { command := "CHATHISTORY".toList,
          code := "INVALID_MSGREFTYPE".toList,
          context := msgref_context sub tgt,
          description :=
            "msgid-based history requests are not supported yet".toList } := by
      unfold parse_msgref
      rw [hsp]
      rfl
    exact ⟨_, hf, rfl⟩
  · intro s hnt hnm
    cases hsp : split_once s '=' with
    | none =>
      refine ⟨malformed_msgref sub tgt s, ?_, rfl, rfl⟩
      unfold parse_msgref
      rw [hsp]
    | some p =>
      obtain ⟨a, b⟩ := p
      have hs := split_once_eq_some s a b '=' hsp
      have ha1 : ¬ a = "timestamp".toList := by
        intro hq
        subst hq
        exact hnt b hs
      have ha2 : ¬ a = "msgid".toList := by
        intro hq
        subst hq
        exact hnm b hs
      refine ⟨malformed_msgref sub tgt s, ?_, rfl, rfl⟩
      unfold parse_msgref
      rw [hsp]
      simp only [if_neg ha1, if_neg ha2]
  · intro ts_s h
    rw [hts ts_s, h]
    exact ⟨_, rfl, rfl⟩
  · intro ts_s t h
    rw [hts ts_s, h]

/-- Witness for C6 at concrete inputs: the four behaviors at the strings
named by the spec's rejection test. -/
theorem parse_msgref_cases_witness :
    (∃ f, parse_msgref "TARGETS".toList none "msgid=abc123".toList
        = Except.error f ∧ f.code = "INVALID_MSGREFTYPE".toList) ∧
    (∃ f, parse_msgref "TARGETS".toList none "bogus".toList
        = Except.error f ∧ f.code = "INVALID_MSGREFTYPE".toList ∧
        f.description = debug_quote "bogus".toList
          ++ " is not a valid message reference".toList) ∧
    (∃ f, parse_msgref "TARGETS".toList none "timestamp=not-a-number".toList
        = Except.error f ∧ f.code = "INVALID_PARAMS".toList) ∧
    parse_msgref "TARGETS".toList none "timestamp=12345".toList
      = Except.ok 12345 :=
  ⟨(parse_msgref_cases "TARGETS".toList none).1 "abc123".toList,
   (parse_msgref_cases "TARGETS".toList none).2.1 "bogus".toList
     (fun r h => by
       have := congrArg List.length h
       simp at this)
     (fun r h => by
       have := congrArg List.length h
       simp at this),
   (parse_msgref_cases "TARGETS".toList none).2.2.1 "not-a-number".toList
     (by decide),
   (parse_msgref_cases "TARGETS".toList none).2.2.2 "12345".toList 12345
     (by decide)⟩

/-! ### TARGETS bound normalization -/

/-- C7: with both TARGETS bounds parseable, the handler normalizes them to
(min, max) before querying, so supplying them in either order produces the
identical result. -/
theorem targets_bound_order_independence (events : List (TargetId × Int))
    (a1 a2 a3 : List Char) (x y : Int)
    (h1 : parse_msgref "TARGETS".toList none a1 = Except.ok x)
    (h2 : parse_msgref "TARGETS".toList none a2 = Except.ok y) :
    handle_targets events a1 a2 a3 = handle_targets events a2 a1 a3 := by
  unfold handle_targets
  rw [h1, h2]
  show (parse_limit a3).bind
      (fun limit => pure (presented_targets events (min x y) (max x y) limit))
    = (parse_limit a3).bind
      (fun limit => pure (presented_targets events (min y x) (max y x) limit))
  rw [min_comm y x, max_comm y x]

/-- Witness for C7 at a concrete input: bounds supplied as (200, 100) give
the identical result as (100, 200). -/
theorem targets_bound_order_independence_witness :
    parse_msgref "TARGETS".toList none "timestamp=200".toList
      = Except.ok 200 ∧
    parse_msgref "TARGETS".toList none "timestamp=100".toList
      = Except.ok 100 ∧
    handle_targets [(TargetId.Channel 1, 150)] "timestamp=200".toList
        "timestamp=100".toList "5".toList
      = handle_targets [(TargetId.Channel 1, 150)] "timestamp=100".toList
        "timestamp=200".toList "5".toList :=
  ⟨rfl, rfl,
   targets_bound_order_independence [(TargetId.Channel 1, 150)] _ _
     "5".toList 200 100 rfl rfl⟩

/-! ### TARGETS result shape -/

theorem list_targets_go_nodup (lower upper : Int) (limit : Nat)
    (events acc : List (TargetId × Int))
    (hacc : (acc.map Prod.fst).Nodup) :
    ((list_targets_go lower upper limit acc events).map Prod.fst).Nodup := by
  induction events generalizing acc with
  | nil => exact hacc
  | cons e rest ih =>
    obtain ⟨t, ts⟩ := e
    unfold list_targets_go
    by_cases hfull : acc.length = limit
    · rw [if_pos hfull]
      exact hacc
    · rw [if_neg hfull]
      by_cases hcond : lower ≤ ts ∧ ts ≤ upper ∧ t ∉ acc.map Prod.fst
      · rw [if_pos hcond]
        refine ih ((t, ts) :: acc) ?_
        simp only [List.map_cons, List.nodup_cons]
        exact ⟨hcond.2.2, hacc⟩
      · rw [if_neg hcond]
        exact ih acc hacc

theorem list_targets_go_length (lower upper : Int) (limit : Nat)
    (events acc : List (TargetId × Int)) (hacc : acc.length ≤ limit) :
    (list_targets_go lower upper limit acc events).length ≤ limit := by
  induction events generalizing acc with
  | nil => exact hacc
  | cons e rest ih =>
    obtain ⟨t, ts⟩ := e
    unfold list_targets_go
    by_cases hfull : acc.length = limit
    · rw [if_pos hfull]
      exact hacc
    · rw [if_neg hfull]
      by_cases hcond : lower ≤ ts ∧ ts ≤ upper ∧ t ∉ acc.map Prod.fst
      · rw [if_pos hcond]
        refine ih ((t, ts) :: acc) ?_
        simp only [List.length_cons]
        omega
      · rw [if_neg hcond]
        exact ih acc hacc

theorem list_targets_go_mem (lower upper : Int) (limit : Nat)
    (events : List (TargetId × Int)) :
    ∀ acc : List (TargetId × Int),
    events.Pairwise (fun p q => q.2 ≤ p.2) →
    (∀ a ∈ acc, ∀ q ∈ events,
      q.1 = a.1 → lower ≤ q.2 → q.2 ≤ upper → q.2 ≤ a.2) →
    ∀ p ∈ list_targets_go lower upper limit acc events,
      p ∈ acc ∨ (p ∈ events ∧ lower ≤ p.2 ∧ p.2 ≤ upper ∧
        p.1 ∉ acc.map Prod.fst ∧
        ∀ q ∈ events, q.1 = p.1 → lower ≤ q.2 → q.2 ≤ upper → q.2 ≤ p.2) := by
  induction events with
  | nil =>
    intro acc _ _ p hp
    exact Or.inl hp
  | cons e rest ih =>
    obtain ⟨t, ts⟩ := e
    intro acc hsorted hinv p hp
    rw [List.pairwise_cons] at hsorted
    obtain ⟨hhead, hrest⟩ := hsorted
    unfold list_targets_go at hp
    by_cases hfull : acc.length = limit
    · rw [if_pos hfull] at hp
      exact Or.inl hp
    · rw [if_neg hfull] at hp
      by_cases hcond : lower ≤ ts ∧ ts ≤ upper ∧ t ∉ acc.map Prod.fst
      · rw [if_pos hcond] at hp
        obtain ⟨hc1, hc2, hc3⟩ := hcond
        have hinv' : ∀ a ∈ (t, ts) :: acc, ∀ q ∈ rest,
            q.1 = a.1 → lower ≤ q.2 → q.2 ≤ upper → q.2 ≤ a.2 := by
          intro a ha q hq hq1 hq2 hq3
          rcases List.mem_cons.mp ha with rfl | ha
          · exact hhead q hq
          · exact hinv a ha q (List.mem_cons_of_mem _ hq) hq1 hq2 hq3
        rcases ih ((t, ts) :: acc) hrest hinv' p hp with
          hmem | ⟨hp1, hp2, hp3, hp4, hp5⟩
        · rcases List.mem_cons.mp hmem with rfl | hmem
          · refine Or.inr ⟨List.mem_cons_self _ _, hc1, hc2, hc3, ?_⟩
            intro q hq hq1 hq2 hq3
            rcases List.mem_cons.mp hq with rfl | hq
            · exact le_refl _
            · exact hhead q hq
          · exact Or.inl hmem
        · refine Or.inr ⟨List.mem_cons_of_mem _ hp1, hp2, hp3, ?_, ?_⟩
          · intro hmem
            apply hp4
            simp only [List.map_cons, List.mem_cons]
            exact Or.inr hmem
          · intro q hq hq1 hq2 hq3
            rcases List.mem_cons.mp hq with rfl | hq
            · exfalso
              apply hp4
              simp only [List.map_cons, List.mem_cons]
              exact Or.inl hq1.symm
            · exact hp5 q hq hq1 hq2 hq3
      · rw [if_neg hcond] at hp
        have hinv' : ∀ a ∈ acc, ∀ q ∈ rest,
            q.1 = a.1 → lower ≤ q.2 → q.2 ≤ upper → q.2 ≤ a.2 :=
          fun a ha q hq => hinv a ha q (List.mem_cons_of_mem _ hq)
        rcases ih acc hrest hinv' p hp with hmem | ⟨hp1, hp2, hp3, hp4, hp5⟩
        · exact Or.inl hmem
        · refine Or.inr ⟨List.mem_cons_of_mem _ hp1, hp2, hp3, hp4, ?_⟩
          intro q hq hq1 hq2 hq3
          rcases List.mem_cons.mp hq with rfl | hq
          · exfalso
            have ht : t ∈ acc.map Prod.fst := by
              by_contra hnot
              exact hcond ⟨hq2, hq3, hnot⟩
            exact hp4 (hq1 ▸ ht)
          · exact hp5 q hq hq1 hq2 hq3

/-- C8: over a backward (newest-first, i.e. timestamp-descending) walk of a
user's history, the TARGETS query result never contains the same target
twice, records for each listed target its most recent timestamp within the
queried window, contains at most `limit` targets, and the handler's
presented result is the same multiset sorted ascending by timestamp. -/
theorem list_targets_dedup_recent_limited_sorted
    (events : List (TargetId × Int)) (lower upper : Int) (limit : Nat)
    (hsorted : events.Pairwise (fun p q => q.2 ≤ p.2)) :
    ((list_targets events lower upper limit).map Prod.fst).Nodup ∧
    (list_targets events lower upper limit).length ≤ limit ∧
    (∀ p ∈ list_targets events lower upper limit,
      p ∈ events ∧ lower ≤ p.2 ∧ p.2 ≤ upper ∧
      ∀ q ∈ events, q.1 = p.1 → lower ≤ q.2 → q.2 ≤ upper → q.2 ≤ p.2) ∧
    List.Sorted (fun p q => p.2 ≤ q.2)
      (presented_targets events lower upper limit) ∧
    (presented_targets events lower upper limit).Perm
      (list_targets events lower upper limit) := by
  refine ⟨list_targets_go_nodup lower upper limit events [] (by simp),
    list_targets_go_length lower upper limit events [] (by simp), ?_,
    List.sorted_insertionSort _ _, List.perm_insertionSort _ _⟩
  intro p hp
  rcases list_targets_go_mem lower upper limit events [] hsorted
      (by simp) p hp with h | ⟨h1, h2, h3, -, h5⟩
  · cases h
  · exact ⟨h1, h2, h3, h5⟩

/-- Witness for C8 at a concrete input: a descending three-event history
with a repeated target, window [100, 400], limit 2. -/
theorem list_targets_dedup_recent_limited_sorted_witness :
    List.Pairwise (fun p q : TargetId × Int => q.2 ≤ p.2)
      [(TargetId.Channel 1, 300), (TargetId.User 2, 250),
       (TargetId.Channel 1, 200)] ∧
    (((list_targets [(TargetId.Channel 1, 300), (TargetId.User 2, 250),
        (TargetId.Channel 1, 200)] 100 400 2).map Prod.fst).Nodup ∧
      (list_targets [(TargetId.Channel 1, 300), (TargetId.User 2, 250),
        (TargetId.Channel 1, 200)] 100 400 2).length ≤ 2 ∧
      (∀ p ∈ list_targets [(TargetId.Channel 1, 300), (TargetId.User 2, 250),
          (TargetId.Channel 1, 200)] 100 400 2,
        p ∈ [(TargetId.Channel 1, 300), (TargetId.User 2, 250),
          (TargetId.Channel 1, 200)] ∧ 100 ≤ p.2 ∧ p.2 ≤ 400 ∧
        ∀ q ∈ [(TargetId.Channel 1, 300), (TargetId.User 2, 250),
          (TargetId.Channel 1, 200)], q.1 = p.1 → 100 ≤ q.2 → q.2 ≤ 400 →
          q.2 ≤ p.2) ∧
      List.Sorted (fun p q : TargetId × Int => p.2 ≤ q.2)
        (presented_targets [(TargetId.Channel 1, 300), (TargetId.User 2, 250),
          (TargetId.Channel 1, 200)] 100 400 2) ∧
      (presented_targets [(TargetId.Channel 1, 300), (TargetId.User 2, 250),
        (TargetId.Channel 1, 200)] 100 400 2).Perm
        (list_targets [(TargetId.Channel 1, 300), (TargetId.User 2, 250),
          (TargetId.Channel 1, 200)] 100 400 2)) :=
  ⟨by simp [List.pairwise_cons],
   list_targets_dedup_recent_limited_sorted
     [(TargetId.Channel 1, 300), (TargetId.User 2, 250),
      (TargetId.Channel 1, 200)] 100 400 2 (by simp [List.pairwise_cons])⟩

end Sable
